import Mathlib

/-!
# Shallow embedding of the Kysely migration engine

This file embeds the migration execution engine of `src/migration/migration.ts`
(class `MigrationModule` and its helpers) as pure Lean functions and proves the
spec's claims about it.

Modelling decisions, all taken from the source:

* A migration's `up(db)` is a promise that either resolves or rejects; its
  observable effect on the engine is only success/failure plus the ledger
  insert that follows it inside the same `try`.  We abstract it by a boolean
  `upOk` (`true` = the forward action and the subsequent ledger insert both
  resolve).  The optional `down(db)` is abstracted by `Option Bool` in the
  same way (`none` = the migration has no `down` property).
* The ledger table `kysely_migration` is the list of its `name` column values;
  `orderBy('name')` is embedded as an insertion sort.
* Failures injected by the environment (bootstrap of the two tables, folder
  read, `acquireMigrationLock`, `releaseMigrationLock`) are booleans in `Env`.
* Every observable action of a run (lock acquire/release, invoking a
  migration's forward/backward action, ledger mutation) is recorded in an
  event trace so that temporal claims can be stated.
-/

namespace KyselyMigration

/-- Direction of a single migration step (`MigrationResult.direction`). -/
inductive Direction where
  | Up
  | Down
deriving DecidableEq, Repr

/-- Execution status of a single migration step (`MigrationResult.status`). -/
inductive Status where
  | Success
  | Error
  | NotExecuted
deriving DecidableEq, Repr

/-- One entry of `MigrationResultSet.results` (interface `MigrationResult`). -/
structure MigrationResult where
  migrationName : String
  direction : Direction
  status : Status
deriving DecidableEq, Repr

/-- The distinct failure causes that can surface from the engine.  Each
constructor corresponds to one `throw` site of `migration.ts` (or to a failure
of an external collaborator that the source awaits). -/
inductive MErr where
  /-- `#readMigrationsFromFolder` / dynamic import failed. -/
  | sourceResolution
  /-- `#ensureMigrationsNotCorrupted`, first loop: an executed name is missing
  from the resolved list. -/
  | corruptedMissing (name : String)
  /-- `#ensureMigrationsNotCorrupted`, second loop: an executed name is out of
  positional alignment. -/
  | corruptedOrder (executed : String) (index : Nat)
  /-- A JavaScript `TypeError` from reading a property of `undefined`
  (indexing past the end of a list). -/
  | typeErr
  /-- `migrateTo`: the named target migration does not exist. -/
  | targetNotFound (name : String)
  /-- `adapter.acquireMigrationLock` rejected. -/
  | lockAcquire
  /-- `adapter.releaseMigrationLock` rejected. -/
  | lockRelease
  /-- `#ensureMigrationTablesExists` rejected. -/
  | bootstrapFailed
  /-- A migration step's action (plus its ledger write) rejected: this is the
  error carried by a `MigrationResultSetError`. -/
  | stepFailed (name : String) (direction : Direction)
deriving DecidableEq, Repr

/-- `true` exactly for the step-execution failures (the errors that the source
wraps in a `MigrationResultSetError` together with the partial result list). -/
def MErr.isStepFailure : MErr → Bool
  | .stepFailed _ _ => true
  | _ => false

/-- `true` exactly for the two corruption errors thrown by
`#ensureMigrationsNotCorrupted`. -/
def MErr.isCorruption : MErr → Bool
  | .corruptedMissing _ => true
  | .corruptedOrder _ _ => true
  | _ => false

/-- Interface `MigrationResultSet`: the uniform, non-throwing outcome object.
`error = none` means success; `results = none` means the failure occurred
before a step plan existed. -/
structure MigrationResultSet where
  error : Option MErr
  results : Option (List MigrationResult)
deriving DecidableEq, Repr

/-- A migration unit bound to its resolved name (interface `NamedMigration`).
See the module comment for the meaning of `upOk` and `down`. -/
structure NamedMigration where
  name : String
  upOk : Bool
  down : Option Bool
deriving DecidableEq, Repr

/-- Interface `MigrationState`: all migrations sorted by name plus the index
of the last executed migration (`-1` if none). -/
structure MigrationState where
  migrations : List NamedMigration
  currentIndex : Int
deriving DecidableEq, Repr

/-- The first argument of every public operation: either an in-memory record
of migrations (keyed by name, here carried on each entry) or a folder path.
A folder path either reads successfully - yielding such a record - or the
read/import rejects; only the failure case needs its own constructor. -/
inductive MigrationSource where
  | record (migs : List NamedMigration)
  | folderReadFails
deriving DecidableEq, Repr

/-- Environment/adapter behaviour for one call: dialect capability and
success/failure of the awaited external collaborators. -/
structure Env where
  supportsTransactionalDdl : Bool
  bootstrapOk : Bool
  acquireOk : Bool
  releaseOk : Bool
deriving DecidableEq, Repr

/-- Observable actions of one run, in order. -/
inductive Event where
  | acquireLock
  | releaseLock
  /-- a migration's forward action was invoked -/
  | runUp (name : String)
  /-- a migration's backward action was invoked -/
  | runDown (name : String)
  /-- a row was inserted into the ledger table -/
  | ledgerInsert (name : String)
  /-- a row was deleted from the ledger table -/
  | ledgerDelete (name : String)
deriving DecidableEq, Repr

/-- What a call escalates internally: either a plain error or a
`MigrationResultSetError` carrying the partial result list. -/
inductive Thrown where
  | plain (e : MErr)
  | withResults (e : MErr) (results : List MigrationResult)
deriving DecidableEq, Repr

/-- The full observable outcome of one public operation: the returned result
set, the ledger contents afterwards, and the event trace. -/
structure Outcome where
  resultSet : MigrationResultSet
  ledger : List String
  events : List Event
deriving DecidableEq, Repr

deriving instance DecidableEq for Except

/-- A `getTargetMigration` callback as passed to `#migrate`. -/
def TargetFn : Type := MigrationState → Except MErr (Option Int)

/-- The lexicographic (codepoint) order on migration names used both by
`Object.keys(...).sort()` and by the SQL `orderBy('name')`. -/
def nameLe (a b : String) : Prop := a.data ≤ b.data

instance : DecidableRel nameLe :=
  fun a b => inferInstanceAs (Decidable (a.data ≤ b.data))

instance : IsTrans String nameLe := ⟨fun _ _ _ => le_trans⟩

instance : IsTotal String nameLe := ⟨fun a b => le_total a.data b.data⟩

instance : IsAntisymm String nameLe :=
  ⟨fun _ _ h1 h2 => String.ext (le_antisymm h1 h2)⟩

/-- Sort a list of names ascending (the `orderBy('name')` of
`#getExecutedMigrations`). -/
def sortNames (l : List String) : List String :=
  List.insertionSort (fun a b => nameLe a b) l

/-- `#resolveMigrations`: `Object.keys(allMigrations).sort().map(...)` for a
record, propagation of the read failure for a folder. -/
def resolveMigrations : MigrationSource → Except MErr (List NamedMigration)
  | .folderReadFails => .error .sourceResolution
  | .record migs =>
    .ok (List.insertionSort (fun a b => nameLe a.name b.name) migs)

/-- First loop of `#ensureMigrationsNotCorrupted`: the first executed name
that `migrations.some(...)` does not find, if any. -/
def firstMissing (migs : List NamedMigration) : List String → Option String
  | [] => none
  | e :: es =>
    if migs.any (fun m => decide (m.name = e)) then firstMissing migs es
    else some e

/-- Second loop of `#ensureMigrationsNotCorrupted`: compare
`migrations[i].name` with `executedMigrations[i]` for each `i`; reading
`migrations[i].name` past the end of the list is a `TypeError`. -/
def checkPositions (migs : List NamedMigration) : Nat → List String → Except MErr Unit
  | _, [] => .ok ()
  | i, e :: es =>
    match migs.get? i with
    | none => .error .typeErr
    | some m =>
      if m.name = e then checkPositions migs (i + 1) es
      else .error (.corruptedOrder e i)

/-- `#ensureMigrationsNotCorrupted`. -/
def ensureMigrationsNotCorrupted (migs : List NamedMigration)
    (executed : List String) : Except MErr Unit :=
  match firstMissing migs executed with
  | some e => .error (.corruptedMissing e)
  | none => checkPositions migs 0 executed

/-- `migrations.findIndex((it) => it.name === getLast(executedMigrations))`:
`-1` when the ledger is empty or the last executed name is not found. -/
def currentIndexOf (migs : List NamedMigration) (executed : List String) : Int :=
  match executed.getLast? with
  | none => -1
  | some last =>
    match migs.findIdx? (fun m => decide (m.name = last)) with
    | none => -1
    | some i => (i : Int)

/-- `#getState`: resolve, read the ledger sorted by name, validate, and
compute the current index. -/
def getState (source : MigrationSource) (ledger : List String) :
    Except MErr MigrationState :=
  match resolveMigrations source with
  | .error e => .error e
  | .ok migs =>
    match ensureMigrationsNotCorrupted migs (sortNames ledger) with
    | .error e => .error e
    | .ok _ => .ok ⟨migs, currentIndexOf migs (sortNames ledger)⟩

/-- The step plan of `#migrateUp`: `state.migrations[i]` for
`i = currentIndex + 1 .. targetIndex`, ascending. -/
def planUp (migs : List NamedMigration) (cur targetIndex : Int) :
    List NamedMigration :=
  (migs.drop (cur + 1).toNat).take (targetIndex - cur).toNat

/-- The step plan of `#migrateDown`: `state.migrations[i]` for
`i = currentIndex .. targetIndex + 1`, descending. -/
def planDown (migs : List NamedMigration) (cur targetIndex : Int) :
    List NamedMigration :=
  ((migs.drop (targetIndex + 1).toNat).take (cur - targetIndex).toNat).reverse

/-- The execution loop of `#migrateUp`: walk the plan, re-finding each entry
in `state.migrations` by name as the source does; on success append the
ledger record and mark `Success`; on failure mark `Error`, keep the remaining
pre-populated `NotExecuted` entries and escalate a `MigrationResultSetError`.
`done` accumulates the results of the already processed steps. -/
def execUp (migs : List NamedMigration) :
    List NamedMigration → List String → List Event → List MigrationResult →
      Except Thrown (List MigrationResult) × List String × List Event
  | [], ledger, events, done => (.ok done, ledger, events)
  | m :: rest, ledger, events, done =>
    match migs.find? (fun it => decide (it.name = m.name)) with
    | none => (.error (.plain .typeErr), ledger, events)
    | some mig =>
      if mig.upOk then
        execUp migs rest (ledger ++ [mig.name])
          (events ++ [Event.runUp mig.name, Event.ledgerInsert mig.name])
          (done ++ [⟨mig.name, .Up, .Success⟩])
      else
        (.error (.withResults (.stepFailed mig.name .Up)
            (done ++ [⟨mig.name, .Up, .Error⟩]
              ++ rest.map (fun r => ⟨r.name, .Up, .NotExecuted⟩))),
          ledger, events ++ [Event.runUp mig.name])

/-- The execution loop of `#migrateDown`: like `execUp` but the backward
action is only invoked when the migration defines one; a migration without
one keeps its pre-populated `NotExecuted` entry and the loop continues. -/
def execDown (migs : List NamedMigration) :
    List NamedMigration → List String → List Event → List MigrationResult →
      Except Thrown (List MigrationResult) × List String × List Event
  | [], ledger, events, done => (.ok done, ledger, events)
  | m :: rest, ledger, events, done =>
    match migs.find? (fun it => decide (it.name = m.name)) with
    | none => (.error (.plain .typeErr), ledger, events)
    | some mig =>
      match mig.down with
      | none => execDown migs rest ledger events
          (done ++ [⟨m.name, .Down, .NotExecuted⟩])
      | some downOk =>
        if downOk then
          execDown migs rest (ledger.filter (fun n => decide (n ≠ mig.name)))
            (events ++ [Event.runDown mig.name, Event.ledgerDelete mig.name])
            (done ++ [⟨mig.name, .Down, .Success⟩])
        else
          (.error (.withResults (.stepFailed mig.name .Down)
              (done ++ [⟨mig.name, .Down, .Error⟩]
                ++ rest.map (fun r => ⟨r.name, .Down, .NotExecuted⟩))),
            ledger, events ++ [Event.runDown mig.name])

/-- The `try` block of the `run` closure in `#runMigrations`: acquire the
lock, build the state, resolve the target, dispatch on its position relative
to the current index. -/
def lockedBody (env : Env) (getTarget : TargetFn) (source : MigrationSource)
    (ledger : List String) :
    Except Thrown MigrationResultSet × List String × List Event :=
  if env.acquireOk then
    match getState source ledger with
    | .error e => (.error (.plain e), ledger, [Event.acquireLock])
    | .ok state =>
      if state.migrations.length = 0 then
        (.ok ⟨none, some []⟩, ledger, [Event.acquireLock])
      else
        match getTarget state with
        | .error e => (.error (.plain e), ledger, [Event.acquireLock])
        | .ok none => (.ok ⟨none, some []⟩, ledger, [Event.acquireLock])
        | .ok (some targetIndex) =>
          if targetIndex < state.currentIndex then
            match execDown state.migrations
                (planDown state.migrations state.currentIndex targetIndex)
                ledger [Event.acquireLock] [] with
            | (.ok results, l, ev) => (.ok ⟨none, some results⟩, l, ev)
            | (.error t, l, ev) => (.error t, l, ev)
          else if targetIndex > state.currentIndex then
            match execUp state.migrations
                (planUp state.migrations state.currentIndex targetIndex)
                ledger [Event.acquireLock] [] with
            | (.ok results, l, ev) => (.ok ⟨none, some results⟩, l, ev)
            | (.error t, l, ev) => (.error t, l, ev)
          else
            (.ok ⟨none, some []⟩, ledger, [Event.acquireLock])
  else (.error (.plain .lockAcquire), ledger, [Event.acquireLock])

/-- The `run` closure of `#runMigrations`: the `try` block above followed by
the `finally` that always invokes `releaseMigrationLock`; if the release
itself rejects, its error replaces the body's outcome. -/
def runMigrations (env : Env) (getTarget : TargetFn) (source : MigrationSource)
    (ledger : List String) :
    Except Thrown MigrationResultSet × List String × List Event :=
  match lockedBody env getTarget source ledger with
  | (body, l, ev) =>
    if env.releaseOk then (body, l, ev ++ [Event.releaseLock])
    else (.error (.plain .lockRelease), l, ev ++ [Event.releaseLock])

/-- Modelled from the spec: the execution-context providers
`db.transaction().execute(run)` / `db.connection().execute(run)` are code of
this repository outside `src/`.  Per §4.6 of the spec, with transactional DDL
a failure rolls the batch's ledger updates back to the pre-call state; without
it, already-applied steps remain applied. -/
def runInContext (env : Env) (getTarget : TargetFn) (source : MigrationSource)
    (ledger : List String) :
    Except Thrown MigrationResultSet × List String × List Event :=
  match runMigrations env getTarget source ledger with
  | (.ok rs, l, ev) => (.ok rs, l, ev)
  | (.error t, l, ev) =>
    (.error t, if env.supportsTransactionalDdl then ledger else l, ev)

/-- `#migrate`: bootstrap the two tables, run, and catch everything at the
boundary - a `MigrationResultSetError` becomes `{error, results}`, any other
failure becomes `{error}`. -/
def migrate (env : Env) (getTarget : TargetFn) (source : MigrationSource)
    (ledger : List String) : Outcome :=
  if env.bootstrapOk then
    match runInContext env getTarget source ledger with
    | (.ok rs, l, ev) => ⟨rs, l, ev⟩
    | (.error (.withResults e results), l, ev) => ⟨⟨some e, some results⟩, l, ev⟩
    | (.error (.plain e), l, ev) => ⟨⟨some e, none⟩, l, ev⟩
  else ⟨⟨some .bootstrapFailed, none⟩, ledger, []⟩

/-- The target callback of `migrateToLatest`: `migrations.length - 1`. -/
def targetLatest : TargetFn :=
  fun state => .ok (some ((state.migrations.length : Int) - 1))

/-- The second argument of `migrateTo`: a migration name or the reserved
`NO_MIGRATIONS` sentinel (a distinct value, never a name). -/
inductive MigrateToTarget where
  | noMigrations
  | byName (name : String)
deriving DecidableEq, Repr

/-- The target callback of `migrateTo`: the sentinel resolves to `-1`, a name
resolves to its `findIndex` in the sorted list, and a name that is not found
is a planning failure. -/
def targetTo (t : MigrateToTarget) : TargetFn :=
  fun state =>
    match t with
    | .noMigrations => .ok (some (-1))
    | .byName name =>
      match state.migrations.findIdx? (fun it => decide (it.name = name)) with
      | none => .error (.targetNotFound name)
      | some i => .ok (some (i : Int))

/-- The target callback of `migrateUp`:
`Math.min(currentIndex + 1, migrations.length - 1)`. -/
def targetUp : TargetFn :=
  fun state =>
    .ok (some (min (state.currentIndex + 1) ((state.migrations.length : Int) - 1)))

/-- The target callback of `migrateDown`: `Math.max(currentIndex - 1, -1)`. -/
def targetDown : TargetFn :=
  fun state => .ok (some (max (state.currentIndex - 1) (-1)))

/-- Public operation `migrateToLatest`. -/
def migrateToLatest (env : Env) (source : MigrationSource)
    (ledger : List String) : Outcome :=
  migrate env targetLatest source ledger

/-- Public operation `migrateTo`. -/
def migrateTo (env : Env) (source : MigrationSource) (t : MigrateToTarget)
    (ledger : List String) : Outcome :=
  migrate env (targetTo t) source ledger

/-- Public operation `migrateUp`. -/
def migrateUp (env : Env) (source : MigrationSource)
    (ledger : List String) : Outcome :=
  migrate env targetUp source ledger

/-- Public operation `migrateDown`. -/
def migrateDown (env : Env) (source : MigrationSource)
    (ledger : List String) : Outcome :=
  migrate env targetDown source ledger

/-- The names of a resolved migration list, in list order. -/
def namesOf (migs : List NamedMigration) : List String :=
  migs.map (fun m => m.name)

/-- The result list carried by an executor outcome: the returned list on
success, the partial list of the `MigrationResultSetError` on a step failure,
and `[]` for a plain (`TypeError`) escalation. -/
def downResults
    (r : Except Thrown (List MigrationResult) × List String × List Event) :
    List MigrationResult :=
  match r.1 with
  | .ok rs => rs
  | .error (.withResults _ rs) => rs
  | .error (.plain _) => []

/-- A clean environment without transactional DDL: bootstrap, lock acquire
and lock release all succeed. -/
def envStd : Env := ⟨false, true, true, true⟩

/-- A clean environment whose dialect supports transactional DDL. -/
def envTx : Env := ⟨true, true, true, true⟩

/-- Scenario migration `a`: forward action succeeds, no backward action. -/
def mA : NamedMigration := ⟨"a", true, none⟩

/-- Scenario migration `b`: forward action fails, no backward action. -/
def mB : NamedMigration := ⟨"b", false, none⟩

/-- Scenario migration `c`: forward action succeeds, no backward action. -/
def mC : NamedMigration := ⟨"c", true, none⟩

/-- Scenario migration `a` with a succeeding backward action. -/
def mA2 : NamedMigration := ⟨"a", true, some true⟩

/-- Scenario migration `b` without a backward action (forward succeeds). -/
def mB2 : NamedMigration := ⟨"b", true, none⟩

theorem execUp_events (migs : List NamedMigration) :
    ∀ (plan : List NamedMigration) (L : List String) (ev : List Event)
      (done : List MigrationResult),
      ∃ d, (execUp migs plan L ev done).2.2 = ev ++ d := by
  intro plan
  induction plan with
  | nil => intro L ev done; exact ⟨[], by simp [execUp]⟩
  | cons m rest ih =>
    intro L ev done
    simp only [execUp]
    cases hf : migs.find? (fun it => decide (it.name = m.name)) with
    | none => exact ⟨[], by simp⟩
    | some mig =>
      dsimp only
      by_cases hu : mig.upOk
      · simp only [hu, if_true]
        obtain ⟨d, hd⟩ := ih (L ++ [mig.name])
          (ev ++ [Event.runUp mig.name, Event.ledgerInsert mig.name])
          (done ++ [⟨mig.name, .Up, .Success⟩])
        exact ⟨[Event.runUp mig.name, Event.ledgerInsert mig.name] ++ d, by
          simp only [hd]; simp⟩
      · simp only [hu, if_false]
        exact ⟨[Event.runUp mig.name], rfl⟩

theorem execDown_events (migs : List NamedMigration) :
    ∀ (plan : List NamedMigration) (L : List String) (ev : List Event)
      (done : List MigrationResult),
      ∃ d, (execDown migs plan L ev done).2.2 = ev ++ d := by
  intro plan
  induction plan with
  | nil => intro L ev done; exact ⟨[], by simp [execDown]⟩
  | cons m rest ih =>
    intro L ev done
    simp only [execDown]
    cases hf : migs.find? (fun it => decide (it.name = m.name)) with
    | none => exact ⟨[], by simp⟩
    | some mig =>
      dsimp only
      cases hd : mig.down with
      | none => exact ih L ev (done ++ [⟨m.name, .Down, .NotExecuted⟩])
      | some downOk =>
        dsimp only
        by_cases hb : downOk
        · simp only [hb, if_true]
          obtain ⟨d, hdd⟩ := ih (L.filter (fun n => decide (n ≠ mig.name)))
            (ev ++ [Event.runDown mig.name, Event.ledgerDelete mig.name])
            (done ++ [⟨mig.name, .Down, .Success⟩])
          exact ⟨[Event.runDown mig.name, Event.ledgerDelete mig.name] ++ d, by
            simp only [hdd]; simp⟩
        · simp only [hb, if_false]
          exact ⟨[Event.runDown mig.name], rfl⟩

theorem lockedBody_events (env : Env) (g : TargetFn) (src : MigrationSource)
    (L : List String) :
    ∃ d, (lockedBody env g src L).2.2 = Event.acquireLock :: d := by
  unfold lockedBody
  by_cases ha : env.acquireOk
  · simp only [ha, if_true]
    cases hs : getState src L with
    | error e => exact ⟨[], rfl⟩
    | ok st =>
      by_cases hn : st.migrations.length = 0
      · simp only [hn, if_true]; exact ⟨[], rfl⟩
      · simp only [hn, if_false]
        cases hg : g st with
        | error e => exact ⟨[], rfl⟩
        | ok t =>
          cases t with
          | none => exact ⟨[], rfl⟩
          | some targetIndex =>
            by_cases h1 : targetIndex < st.currentIndex
            · simp only [h1, if_true]
              obtain ⟨d, hd⟩ := execDown_events st.migrations
                (planDown st.migrations st.currentIndex targetIndex) L
                [Event.acquireLock] []
              rcases hE : execDown st.migrations
                  (planDown st.migrations st.currentIndex targetIndex) L
                  [Event.acquireLock] [] with ⟨r, l2, ev2⟩
              rw [hE] at hd
              cases r with
              | ok results => exact ⟨d, hd⟩
              | error t => exact ⟨d, hd⟩
            · simp only [h1, if_false]
              by_cases h2 : targetIndex > st.currentIndex
              · simp only [h2, if_true]
                obtain ⟨d, hd⟩ := execUp_events st.migrations
                  (planUp st.migrations st.currentIndex targetIndex) L
                  [Event.acquireLock] []
                rcases hE : execUp st.migrations
                    (planUp st.migrations st.currentIndex targetIndex) L
                    [Event.acquireLock] [] with ⟨r, l2, ev2⟩
                rw [hE] at hd
                cases r with
                | ok results => exact ⟨d, hd⟩
                | error t => exact ⟨d, hd⟩
              · simp only [h2, if_false]; exact ⟨[], rfl⟩
  · simp only [ha, if_false]; exact ⟨[], rfl⟩


theorem migrate_events_eq (env : Env) (g : TargetFn) (src : MigrationSource)
    (L : List String) (hb : env.bootstrapOk = true) :
    (migrate env g src L).events
      = (lockedBody env g src L).2.2 ++ [Event.releaseLock] := by
  unfold migrate runInContext runMigrations
  rcases hE : lockedBody env g src L with ⟨body, l, ev⟩
  by_cases hr : env.releaseOk
  · simp only [hb, hr, if_true]
    cases body with
    | ok rs => rfl
    | error t =>
      cases t with
      | plain e => rfl
      | withResults e rs => rfl
  · simp only [hb, hr, if_true, if_false]
    rfl

theorem migrate_noop (env : Env) (g : TargetFn) (src : MigrationSource)
    (L : List String) (st : MigrationState)
    (hb : env.bootstrapOk = true) (ha : env.acquireOk = true)
    (hr : env.releaseOk = true) (hst : getState src L = .ok st)
    (hg : g st = .ok (some st.currentIndex)) :
    migrate env g src L
      = ⟨⟨none, some []⟩, L, [Event.acquireLock, Event.releaseLock]⟩ := by
  unfold migrate runInContext runMigrations lockedBody
  by_cases hn : st.migrations.length = 0
  · simp [hb, ha, hr, hst, hn]
  · simp [hb, ha, hr, hst, hn, hg]

theorem migrate_stateErr (env : Env) (g : TargetFn) (src : MigrationSource)
    (L : List String) (e : MErr)
    (hb : env.bootstrapOk = true) (ha : env.acquireOk = true)
    (hr : env.releaseOk = true) (hst : getState src L = .error e) :
    migrate env g src L
      = ⟨⟨some e, none⟩, L, [Event.acquireLock, Event.releaseLock]⟩ := by
  unfold migrate runInContext runMigrations lockedBody
  simp [hb, ha, hr, hst]

theorem migrate_targetErr (env : Env) (g : TargetFn) (src : MigrationSource)
    (L : List String) (st : MigrationState) (e : MErr)
    (hb : env.bootstrapOk = true) (ha : env.acquireOk = true)
    (hr : env.releaseOk = true) (hst : getState src L = .ok st)
    (hn : st.migrations.length ≠ 0) (hg : g st = .error e) :
    migrate env g src L
      = ⟨⟨some e, none⟩, L, [Event.acquireLock, Event.releaseLock]⟩ := by
  unfold migrate runInContext runMigrations lockedBody
  simp [hb, ha, hr, hst, hn, hg]

/-- **C8**: on every exit path from the locked execution scope of a public
operation - success, planning failure, or step failure - the lock release is
invoked after the lock acquisition succeeded: once the bootstrap step has
passed and the lock was acquired, the event trace is exactly an acquire,
followed by the run's actions, followed by the release, whatever the run did. -/
theorem c8_lock_released_on_every_exit (env : Env) (g : TargetFn)
    (src : MigrationSource) (L : List String)
    (hb : env.bootstrapOk = true) (ha : env.acquireOk = true) :
    ∃ mid, (migrate env g src L).events
      = Event.acquireLock :: mid ++ [Event.releaseLock] := by
  obtain ⟨d, hd⟩ := lockedBody_events env g src L
  exact ⟨d, by rw [migrate_events_eq env g src L hb, hd]⟩

/-- Witness for C8: a run with a step failure still has a trailing release. -/
theorem c8_witness :
    ∃ mid, (migrate envStd targetLatest (.record [mA, mB, mC]) []).events
      = Event.acquireLock :: mid ++ [Event.releaseLock] :=
  c8_lock_released_on_every_exit envStd targetLatest (.record [mA, mB, mC]) []
    rfl rfl


/-- **C5**: for every state, the one-step target callbacks compute
`min(currentIndex + 1, length - 1)` and `max(currentIndex - 1, -1)`, these
never pass `length - 1` respectively `-1`, and at the boundary (current index
already `length - 1` for up, already `-1` for down) the operation is a no-op:
it returns `{results: []}` and leaves the ledger unchanged, so any repetition
of the same call from that state does the same. -/
theorem c5_one_step_targets_bounded :
    (∀ st : MigrationState,
      targetUp st
        = .ok (some (min (st.currentIndex + 1) ((st.migrations.length : Int) - 1)))) ∧
    (∀ st : MigrationState,
      targetDown st = .ok (some (max (st.currentIndex - 1) (-1)))) ∧
    (∀ st : MigrationState,
      min (st.currentIndex + 1) ((st.migrations.length : Int) - 1)
          ≤ (st.migrations.length : Int) - 1
        ∧ -1 ≤ max (st.currentIndex - 1) (-1)) ∧
    (∀ (env : Env) (src : MigrationSource) (L : List String) (st : MigrationState),
      env.bootstrapOk = true → env.acquireOk = true → env.releaseOk = true →
      getState src L = .ok st →
      st.currentIndex = (st.migrations.length : Int) - 1 →
      migrateUp env src L
        = ⟨⟨none, some []⟩, L, [Event.acquireLock, Event.releaseLock]⟩) ∧
    (∀ (env : Env) (src : MigrationSource) (L : List String) (st : MigrationState),
      env.bootstrapOk = true → env.acquireOk = true → env.releaseOk = true →
      getState src L = .ok st → st.currentIndex = -1 →
      migrateDown env src L
        = ⟨⟨none, some []⟩, L, [Event.acquireLock, Event.releaseLock]⟩) := by
  refine ⟨fun st => rfl, fun st => rfl,
    fun st => ⟨min_le_right _ _, le_max_right _ _⟩, ?_, ?_⟩
  · intro env src L st hb ha hr hst hcur
    refine migrate_noop env targetUp src L st hb ha hr hst ?_
    unfold targetUp
    have hmin : min ((st.migrations.length : Int) - 1 + 1)
        ((st.migrations.length : Int) - 1) = (st.migrations.length : Int) - 1 :=
      min_eq_right (by omega)
    rw [hcur, hmin]
  · intro env src L st hb ha hr hst hcur
    refine migrate_noop env targetDown src L st hb ha hr hst ?_
    unfold targetDown
    have hmax : max ((-1 : Int) - 1) (-1) = -1 := max_eq_right (by omega)
    rw [hcur, hmax]

/-- Witness for C5: concrete boundary calls are no-ops. -/
theorem c5_witness :
    migrateUp envStd (.record [mA]) ["a"]
        = ⟨⟨none, some []⟩, ["a"], [Event.acquireLock, Event.releaseLock]⟩ ∧
    migrateDown envStd (.record [mA]) []
        = ⟨⟨none, some []⟩, [], [Event.acquireLock, Event.releaseLock]⟩ :=
  ⟨c5_one_step_targets_bounded.2.2.2.1 envStd (.record [mA]) ["a"] ⟨[mA], 0⟩
      rfl rfl rfl (by decide) (by decide),
    c5_one_step_targets_bounded.2.2.2.2 envStd (.record [mA]) [] ⟨[mA], -1⟩
      rfl rfl rfl (by decide) (by decide)⟩

/-- **C9**: when the resolved migration list is empty, the outcome does not
depend on the target callback at all (it is never evaluated, so no
unresolved-name error can be produced), and with a clean environment and an
empty ledger the operation returns `{results: []}`. -/
theorem c9_empty_resolution (env : Env) (L : List String) :
    (∀ g1 g2 : TargetFn,
      migrate env g1 (.record []) L = migrate env g2 (.record []) L) ∧
    (env.bootstrapOk = true → env.acquireOk = true → env.releaseOk = true →
      ∀ g : TargetFn,
        migrate env g (.record []) []
          = ⟨⟨none, some []⟩, [], [Event.acquireLock, Event.releaseLock]⟩) := by
  constructor
  · intro g1 g2
    unfold migrate runInContext runMigrations lockedBody
    cases hst : getState (.record []) L with
    | error e => rfl
    | ok st =>
      have hm : st.migrations = [] := by
        unfold getState resolveMigrations at hst
        simp only [List.insertionSort] at hst
        cases he : ensureMigrationsNotCorrupted [] (sortNames L) with
        | error e => rw [he] at hst; cases hst
        | ok u => rw [he] at hst; cases hst; rfl
      simp [hm]
  · intro hb ha hr g
    have hst : getState (.record ([] : List NamedMigration)) []
        = .ok ⟨[], -1⟩ := by decide
    unfold migrate runInContext runMigrations lockedBody
    simp [hb, ha, hr, hst]

/-- Witness for C9: two different target callbacks, same outcome; a clean
call on the empty record returns an empty result list. -/
theorem c9_witness :
    migrate envStd targetLatest (.record []) ["z"]
        = migrate envStd (targetTo (.byName "q")) (.record []) ["z"] ∧
    migrate envStd targetLatest (.record []) []
        = ⟨⟨none, some []⟩, [], [Event.acquireLock, Event.releaseLock]⟩ :=
  ⟨(c9_empty_resolution envStd ["z"]).1 targetLatest (targetTo (.byName "q")),
    (c9_empty_resolution envStd []).2 rfl rfl rfl targetLatest⟩

/-- **C3 counterexample**: with a dialect that supports transactional DDL
(spec §4.6), the failed batch is rolled back, so after the scenario
`["a","b","c"]` with `b`'s forward action failing the ledger is empty - it
does not contain the record for `a` as the claim states unconditionally. -/
theorem c3_counterexample :
    (migrateToLatest envTx (.record [mA, mB, mC]) []).ledger = [] ∧
    (migrateToLatest envTx (.record [mA, mB, mC]) []).ledger ≠ ["a"] := by
  decide

/-- **C3 amended**: migrations `["a","b","c"]` from an empty ledger
(`currentIndex = -1`) with `b`'s forward action failing: `migrateToLatest`
returns the error together with results `[a: Success, b: Error,
c: NotExecuted]` (all direction Up), `c`'s forward action is never invoked,
and the ledger afterwards contains exactly the record for `a` when the
dialect does not support transactional DDL (with transactional DDL the same
results are returned but the ledger is rolled back to empty). -/
theorem c3_partial_failure_truncation :
    (migrateToLatest envStd (.record [mA, mB, mC]) []).resultSet
      = ⟨some (.stepFailed "b" .Up),
          some [⟨"a", .Up, .Success⟩, ⟨"b", .Up, .Error⟩,
            ⟨"c", .Up, .NotExecuted⟩]⟩ ∧
    (migrateToLatest envStd (.record [mA, mB, mC]) []).ledger = ["a"] ∧
    Event.runUp "c" ∉ (migrateToLatest envStd (.record [mA, mB, mC]) []).events ∧
    (migrateToLatest envTx (.record [mA, mB, mC]) []).resultSet
      = ⟨some (.stepFailed "b" .Up),
          some [⟨"a", .Up, .Success⟩, ⟨"b", .Up, .Error⟩,
            ⟨"c", .Up, .NotExecuted⟩]⟩ := by
  decide

/-- **C10**: during a down run a migration without a backward action is
skipped without aborting - execution continues into the remaining (earlier)
planned steps with only a `NotExecuted` entry recorded - and concretely, on
`["a","b"]` fully migrated, migrating to the no-migrations sentinel runs and
deletes `a` while `b` stays in the ledger, after which the next operation
fails with a corruption error. -/
theorem c10_down_skip_does_not_abort :
    (∀ (migs : List NamedMigration) (m : NamedMigration)
      (rest : List NamedMigration) (L : List String) (ev : List Event)
      (done : List MigrationResult),
      migs.find? (fun it => decide (it.name = m.name)) = some m →
      m.down = none →
      execDown migs (m :: rest) L ev done
        = execDown migs rest L ev (done ++ [⟨m.name, .Down, .NotExecuted⟩])) ∧
    migrateTo envStd (.record [mA2, mB2]) .noMigrations ["a", "b"]
      = ⟨⟨none, some [⟨"b", .Down, .NotExecuted⟩, ⟨"a", .Down, .Success⟩]⟩,
          ["b"],
          [Event.acquireLock, Event.runDown "a", Event.ledgerDelete "a",
            Event.releaseLock]⟩ ∧
    (migrateUp envStd (.record [mA2, mB2]) ["b"]).resultSet
      = ⟨some (.corruptedOrder "b" 0), none⟩ := by
  refine ⟨?_, by decide, by decide⟩
  intro migs m rest L ev done hf hd
  simp [execDown, hf, hd]

/-- Witness for C10: the skip equation at a concrete input. -/
theorem c10_witness :
    execDown [mA2, mB2] [mB2, mA2] ["a", "b"] [] []
      = execDown [mA2, mB2] [mA2] ["a", "b"] []
          [⟨"b", .Down, .NotExecuted⟩] :=
  c10_down_skip_does_not_abort.1 [mA2, mB2] mB2 [mA2] ["a", "b"] [] []
    (by decide) (by decide)


theorem execDown_aux (migs : List NamedMigration) :
    ∀ (plan : List NamedMigration) (L : List String) (ev : List Event)
      (done : List MigrationResult),
      (∀ m ∈ plan, migs.find? (fun it => decide (it.name = m.name)) = some m) →
      ∃ tail,
        downResults (execDown migs plan L ev done) = done ++ tail ∧
        tail.length = plan.length ∧
        (∀ (i : Nat) (m : NamedMigration),
          plan.get? i = some m → m.down = none →
          tail.get? i = some ⟨m.name, .Down, .NotExecuted⟩) ∧
        (∀ n : String, (∀ m ∈ plan, m.name = n → m.down = none) →
          (n ∈ (execDown migs plan L ev done).2.1 ↔ n ∈ L)) := by
  intro plan
  induction plan with
  | nil =>
    intro L ev done hfind
    refine ⟨[], by simp [execDown, downResults], rfl, ?_, ?_⟩
    · intro i m h
      simp at h
    · intro n _
      exact Iff.rfl
  | cons m rest ih =>
    intro L ev done hfind
    have hf : migs.find? (fun it => decide (it.name = m.name)) = some m :=
      hfind m (List.mem_cons_self m rest)
    have hrest : ∀ m2 ∈ rest,
        migs.find? (fun it => decide (it.name = m2.name)) = some m2 :=
      fun m2 h2 => hfind m2 (List.mem_cons_of_mem m h2)
    simp only [execDown, hf]
    cases hd : m.down with
    | none =>
      obtain ⟨tail2, h1, h2, h3, h4⟩ :=
        ih L ev (done ++ [⟨m.name, .Down, .NotExecuted⟩]) hrest
      refine ⟨⟨m.name, .Down, .NotExecuted⟩ :: tail2, ?_, by simp [h2], ?_, ?_⟩
      · rw [h1]
        simp
      · intro i m2 hm2 hd2
        cases i with
        | zero =>
          simp only [List.get?_cons_zero, Option.some.injEq] at hm2
          subst hm2
          rfl
        | succ j =>
          simp only [List.get?_cons_succ] at hm2 ⊢
          exact h3 j m2 hm2 hd2
      · intro n hn
        exact h4 n (fun m2 h2 => hn m2 (List.mem_cons_of_mem m h2))
    | some downOk =>
      by_cases hb : downOk
      · subst hb
        simp only [if_true]
        obtain ⟨tail2, h1, h2, h3, h4⟩ :=
          ih (L.filter (fun n => decide (n ≠ m.name)))
            (ev ++ [Event.runDown m.name, Event.ledgerDelete m.name])
            (done ++ [⟨m.name, .Down, .Success⟩]) hrest
        refine ⟨⟨m.name, .Down, .Success⟩ :: tail2, ?_, by simp [h2], ?_, ?_⟩
        · rw [h1]
          simp
        · intro i m2 hm2 hd2
          cases i with
          | zero =>
            simp only [List.get?_cons_zero, Option.some.injEq] at hm2
            subst hm2
            rw [hd] at hd2
            cases hd2
          | succ j =>
            simp only [List.get?_cons_succ] at hm2 ⊢
            exact h3 j m2 hm2 hd2
        · intro n hn
          have hne : n ≠ m.name := by
            intro he
            have := hn m (List.mem_cons_self m rest) he.symm
            rw [hd] at this
            cases this
          have := h4 n (fun m2 h2 => hn m2 (List.mem_cons_of_mem m h2))
          rw [this]
          simp [List.mem_filter, hne]
      · have hb2 : downOk = false := by
          cases downOk
          · rfl
          · exact absurd rfl hb
        subst hb2
        simp only [Bool.false_eq_true, if_false]
        refine ⟨⟨m.name, .Down, .Error⟩
            :: rest.map (fun r => ⟨r.name, .Down, .NotExecuted⟩), ?_, by simp, ?_, ?_⟩
        · simp [downResults]
        · intro i m2 hm2 hd2
          cases i with
          | zero =>
            simp only [List.get?_cons_zero, Option.some.injEq] at hm2
            subst hm2
            rw [hd] at hd2
            cases hd2
          | succ j =>
            simp only [List.get?_cons_succ] at hm2 ⊢
            rw [List.get?_map, hm2]
            rfl
        · intro n _
          trivial

/-- **C6**: in a down run, every planned migration without a backward action
keeps its pre-populated `NotExecuted` (direction Down) result entry at its
position in the plan, no error is attributed to it, and its ledger record is
not deleted, whatever happens to the other planned steps.  (`hfind` states
that re-finding a planned entry in `state.migrations` by name returns that
entry, which holds whenever migration names are unique; `hname` states that
no other planned entry shares its name and has a backward action.) -/
theorem c6_no_backward_action_noop (migs plan : List NamedMigration)
    (L : List String) (ev : List Event) (done : List MigrationResult)
    (hfind : ∀ m ∈ plan, migs.find? (fun it => decide (it.name = m.name)) = some m)
    (i : Nat) (m : NamedMigration) (hm : plan.get? i = some m)
    (hdown : m.down = none)
    (hname : ∀ m2 ∈ plan, m2.name = m.name → m2.down = none) :
    ∃ tail,
      downResults (execDown migs plan L ev done) = done ++ tail ∧
      tail.length = plan.length ∧
      tail.get? i = some ⟨m.name, .Down, .NotExecuted⟩ ∧
      (m.name ∈ (execDown migs plan L ev done).2.1 ↔ m.name ∈ L) := by
  obtain ⟨tail, h1, h2, h3, h4⟩ := execDown_aux migs plan L ev done hfind
  exact ⟨tail, h1, h2, h3 i m hm hdown, h4 m.name hname⟩

/-- Witness for C6: in the `["a","b"]` down run, `b` (no backward action)
keeps its `NotExecuted` entry and stays in the ledger. -/
theorem c6_witness :
    ∃ tail,
      downResults (execDown [mA2, mB2] [mB2, mA2] ["a", "b"] [] [])
          = [] ++ tail ∧
      tail.length = [mB2, mA2].length ∧
      tail.get? 0 = some ⟨mB2.name, .Down, .NotExecuted⟩ ∧
      (mB2.name ∈ (execDown [mA2, mB2] [mB2, mA2] ["a", "b"] [] []).2.1
        ↔ mB2.name ∈ ["a", "b"]) :=
  c6_no_backward_action_noop [mA2, mB2] [mB2, mA2] ["a", "b"] [] []
    (by decide) 0 mB2 (by decide) (by decide) (by decide)


/-- The shape required of a result list surfaced together with an error: the
failing step is marked `Error` and every later planned step `NotExecuted`. -/
def FailureShape (rs : List MigrationResult) : Prop :=
  ∃ pre r post, rs = pre ++ r :: post ∧ r.status = .Error ∧
    ∀ x ∈ post, x.status = .NotExecuted

/-- Well-formedness of an escalated failure: a plain error is never a step
failure, and a `MigrationResultSetError` carries a step failure together with
a result list of the required shape. -/
def ThrownOk : Thrown → Prop
  | .plain e => e.isStepFailure = false
  | .withResults e rs => e.isStepFailure = true ∧ FailureShape rs

/-- The contract of every public operation's outcome: a surfaced step
failure comes with a result list whose failing entry is `Error` and whose
later entries are `NotExecuted`; every other surfaced failure comes with no
result list; success always has a result list. -/
def OutcomeContract (o : Outcome) : Prop :=
  (∀ e, o.resultSet.error = some e →
    (e.isStepFailure = false → o.resultSet.results = none) ∧
    (e.isStepFailure = true →
      ∃ rs, o.resultSet.results = some rs ∧ FailureShape rs)) ∧
  (o.resultSet.error = none → ∃ l, o.resultSet.results = some l)

theorem execUp_thrown (migs : List NamedMigration) :
    ∀ (plan : List NamedMigration) (L : List String) (ev : List Event)
      (done : List MigrationResult) (t : Thrown),
      (execUp migs plan L ev done).1 = .error t → ThrownOk t := by
  intro plan
  induction plan with
  | nil =>
    intro L ev done t h
    simp [execUp] at h
  | cons m rest ih =>
    intro L ev done t h
    simp only [execUp] at h
    cases hf : migs.find? (fun it => decide (it.name = m.name)) with
    | none =>
      rw [hf] at h
      cases h
      rfl
    | some mig =>
      rw [hf] at h
      dsimp only at h
      by_cases hu : mig.upOk
      · rw [if_pos hu] at h
        exact ih _ _ _ t h
      · rw [if_neg hu] at h
        cases h
        refine ⟨rfl, done, ⟨mig.name, .Up, .Error⟩,
          rest.map (fun r => ⟨r.name, .Up, .NotExecuted⟩), ?_, rfl, ?_⟩
        · simp
        · intro x hx
          obtain ⟨r, _, hr⟩ := List.mem_map.mp hx
          rw [← hr]

theorem execDown_thrown (migs : List NamedMigration) :
    ∀ (plan : List NamedMigration) (L : List String) (ev : List Event)
      (done : List MigrationResult) (t : Thrown),
      (execDown migs plan L ev done).1 = .error t → ThrownOk t := by
  intro plan
  induction plan with
  | nil =>
    intro L ev done t h
    simp [execDown] at h
  | cons m rest ih =>
    intro L ev done t h
    simp only [execDown] at h
    cases hf : migs.find? (fun it => decide (it.name = m.name)) with
    | none =>
      rw [hf] at h
      cases h
      rfl
    | some mig =>
      rw [hf] at h
      dsimp only at h
      cases hd : mig.down with
      | none =>
        rw [hd] at h
        exact ih _ _ _ t h
      | some downOk =>
        rw [hd] at h
        dsimp only at h
        by_cases hb : downOk
        · rw [if_pos hb] at h
          exact ih _ _ _ t h
        · rw [if_neg hb] at h
          cases h
          refine ⟨rfl, done, ⟨mig.name, .Down, .Error⟩,
            rest.map (fun r => ⟨r.name, .Down, .NotExecuted⟩), ?_, rfl, ?_⟩
          · simp
          · intro x hx
            obtain ⟨r, _, hr⟩ := List.mem_map.mp hx
            rw [← hr]

theorem checkPositions_err (migs : List NamedMigration) :
    ∀ (ex : List String) (i : Nat) (e : MErr),
      checkPositions migs i ex = .error e → e.isStepFailure = false := by
  intro ex
  induction ex with
  | nil =>
    intro i e h
    simp [checkPositions] at h
  | cons e0 es ih =>
    intro i e h
    simp only [checkPositions] at h
    cases hm : migs.get? i with
    | none =>
      rw [hm] at h
      cases h
      rfl
    | some m =>
      rw [hm] at h
      dsimp only at h
      by_cases hn : m.name = e0
      · rw [if_pos hn] at h
        exact ih (i + 1) e h
      · rw [if_neg hn] at h
        cases h
        rfl

theorem ensure_err (migs : List NamedMigration) (ex : List String) (e : MErr)
    (h : ensureMigrationsNotCorrupted migs ex = .error e) :
    e.isStepFailure = false := by
  unfold ensureMigrationsNotCorrupted at h
  cases hf : firstMissing migs ex with
  | some n =>
    rw [hf] at h
    cases h
    rfl
  | none =>
    rw [hf] at h
    exact checkPositions_err migs ex 0 e h

theorem getState_err (src : MigrationSource) (L : List String) (e : MErr)
    (h : getState src L = .error e) : e.isStepFailure = false := by
  unfold getState at h
  cases hr : resolveMigrations src with
  | error e2 =>
    rw [hr] at h
    cases h
    cases src with
    | record migs => simp [resolveMigrations] at hr
    | folderReadFails =>
      unfold resolveMigrations at hr
      cases hr
      rfl
  | ok migs =>
    rw [hr] at h
    dsimp only at h
    cases he : ensureMigrationsNotCorrupted migs (sortNames L) with
    | error e2 =>
      rw [he] at h
      cases h
      exact ensure_err migs (sortNames L) e he
    | ok u =>
      rw [he] at h
      cases h

theorem lockedBody_classify (env : Env) (g : TargetFn) (src : MigrationSource)
    (L : List String)
    (hg : ∀ st e, g st = .error e → e.isStepFailure = false) :
    (∀ rs, (lockedBody env g src L).1 = .ok rs →
      rs.error = none ∧ ∃ l, rs.results = some l) ∧
    (∀ t, (lockedBody env g src L).1 = .error t → ThrownOk t) := by
  unfold lockedBody
  by_cases ha : env.acquireOk
  · simp only [ha, if_true]
    cases hst : getState src L with
    | error e =>
      refine ⟨fun rs h => (by cases h), fun t h => ?_⟩
      cases h
      exact getState_err src L e hst
    | ok st =>
      by_cases hn : st.migrations.length = 0
      · simp only [hn, if_true]
        refine ⟨fun rs h => ?_, fun t h => (by cases h)⟩
        cases h
        exact ⟨rfl, ⟨[], rfl⟩⟩
      · simp only [hn, if_false]
        cases hgt : g st with
        | error e =>
          refine ⟨fun rs h => (by cases h), fun t h => ?_⟩
          cases h
          exact hg st e hgt
        | ok tgt =>
          cases tgt with
          | none =>
            refine ⟨fun rs h => ?_, fun t h => (by cases h)⟩
            cases h
            exact ⟨rfl, ⟨[], rfl⟩⟩
          | some targetIndex =>
            by_cases h1 : targetIndex < st.currentIndex
            · simp only [h1, if_true]
              rcases hE : execDown st.migrations
                  (planDown st.migrations st.currentIndex targetIndex) L
                  [Event.acquireLock] [] with ⟨r, l2, ev2⟩
              cases r with
              | ok results =>
                refine ⟨fun rs h => ?_, fun t h => (by cases h)⟩
                cases h
                exact ⟨rfl, ⟨results, rfl⟩⟩
              | error t0 =>
                refine ⟨fun rs h => (by cases h), fun t h => ?_⟩
                cases h
                exact execDown_thrown st.migrations _ L [Event.acquireLock] [] t0
                  (by rw [hE])
            · simp only [h1, if_false]
              by_cases h2 : targetIndex > st.currentIndex
              · simp only [h2, if_true]
                rcases hE : execUp st.migrations
                    (planUp st.migrations st.currentIndex targetIndex) L
                    [Event.acquireLock] [] with ⟨r, l2, ev2⟩
                cases r with
                | ok results =>
                  refine ⟨fun rs h => ?_, fun t h => (by cases h)⟩
                  cases h
                  exact ⟨rfl, ⟨results, rfl⟩⟩
                | error t0 =>
                  refine ⟨fun rs h => (by cases h), fun t h => ?_⟩
                  cases h
                  exact execUp_thrown st.migrations _ L [Event.acquireLock] [] t0
                    (by rw [hE])
              · simp only [h2, if_false]
                refine ⟨fun rs h => ?_, fun t h => (by cases h)⟩
                cases h
                exact ⟨rfl, ⟨[], rfl⟩⟩
  · simp only [ha, if_false]
    exact ⟨fun rs h => (by cases h), fun t h => (by cases h; rfl)⟩

theorem migrate_classify (env : Env) (g : TargetFn) (src : MigrationSource)
    (L : List String)
    (hg : ∀ st e, g st = .error e → e.isStepFailure = false) :
    OutcomeContract (migrate env g src L) := by
  unfold migrate runInContext runMigrations
  obtain ⟨hok, herr⟩ := lockedBody_classify env g src L hg
  rcases hL : lockedBody env g src L with ⟨body, l, ev⟩
  rw [hL] at hok herr
  by_cases hb : env.bootstrapOk
  · by_cases hr : env.releaseOk
    · simp only [hb, hr, if_true]
      cases body with
      | ok rs =>
        obtain ⟨he, l2, hres⟩ := hok rs rfl
        exact ⟨fun e h => (by rw [he] at h; cases h), fun _ => ⟨l2, hres⟩⟩
      | error t =>
        have ht : ThrownOk t := herr t rfl
        cases t with
        | plain e =>
          refine ⟨fun e2 h => ?_, fun h => (by cases h)⟩
          cases h
          exact ⟨fun _ => rfl, fun hs => (by rw [ht] at hs; cases hs)⟩
        | withResults e rs =>
          obtain ⟨hs, hshape⟩ := ht
          refine ⟨fun e2 h => ?_, fun h => (by cases h)⟩
          cases h
          exact ⟨fun hf => (by rw [hs] at hf; cases hf), fun _ => ⟨rs, rfl, hshape⟩⟩
    · simp only [hb, hr, if_true, if_false]
      cases body with
      | ok rs =>
        refine ⟨fun e h => ?_, fun h => (by cases h)⟩
        cases h
        exact ⟨fun _ => rfl, fun hs => (by cases hs)⟩
      | error t =>
        cases t with
        | plain e =>
          refine ⟨fun e2 h => ?_, fun h => (by cases h)⟩
          cases h
          exact ⟨fun _ => rfl, fun hs => (by cases hs)⟩
        | withResults e rs =>
          refine ⟨fun e2 h => ?_, fun h => (by cases h)⟩
          cases h
          exact ⟨fun _ => rfl, fun hs => (by cases hs)⟩
  · simp only [hb, if_false]
    refine ⟨fun e h => ?_, fun h => (by cases h)⟩
    cases h
    exact ⟨fun _ => rfl, fun hs => (by cases hs)⟩

/-- **C1**: every public operation is a total function into a result set (it
never raises): whenever the surfaced error is a step-execution failure the
result set is `{error, results}` with the failing step marked `Error` and all
later planned steps `NotExecuted`; whenever it is any earlier failure of the
taxonomy (source resolution, corruption, unresolved target, lock, bootstrap -
exactly the non-step-failure errors) the result set is `{error}` with no
results; and a successful call always carries a results list. -/
theorem c1_never_raises_contract (env : Env) (src : MigrationSource)
    (L : List String) (t : MigrateToTarget) :
    OutcomeContract (migrateToLatest env src L) ∧
    OutcomeContract (migrateTo env src t L) ∧
    OutcomeContract (migrateUp env src L) ∧
    OutcomeContract (migrateDown env src L) := by
  refine ⟨migrate_classify env targetLatest src L ?_,
    migrate_classify env (targetTo t) src L ?_,
    migrate_classify env targetUp src L ?_,
    migrate_classify env targetDown src L ?_⟩
  · intro st e h
    cases h
  · intro st e h
    cases t with
    | noMigrations => cases h
    | byName n =>
      unfold targetTo at h
      dsimp only at h
      cases hidx : st.migrations.findIdx? (fun it => decide (it.name = n)) with
      | none =>
        rw [hidx] at h
        cases h
        rfl
      | some i =>
        rw [hidx] at h
        cases h
  · intro st e h
    cases h
  · intro st e h
    cases h

/-- Witness for C1: the contract at a run with a concrete step failure. -/
theorem c1_witness :
    ∃ rs, (migrateToLatest envStd (.record [mA, mB, mC]) []).resultSet.results
        = some rs ∧ FailureShape rs :=
  ((c1_never_raises_contract envStd (.record [mA, mB, mC]) []
      MigrateToTarget.noMigrations).1.1 (.stepFailed "b" .Up)
    (by decide)).2 (by decide)


/-- `l1` is an initial segment (prefix) of `l2`. -/
def isInitialSegment : List String → List String → Prop
  | [], _ => True
  | _ :: _, [] => False
  | e :: es, n :: ns => e = n ∧ isInitialSegment es ns

instance isInitialSegment.instDecidable :
    ∀ (l1 l2 : List String), Decidable (isInitialSegment l1 l2)
  | [], _ => .isTrue trivial
  | _ :: _, [] => .isFalse id
  | e :: es, n :: ns =>
    have : Decidable (isInitialSegment es ns) :=
      isInitialSegment.instDecidable es ns
    inferInstanceAs (Decidable (e = n ∧ isInitialSegment es ns))

theorem isInitialSegment_subset :
    ∀ (l1 l2 : List String), isInitialSegment l1 l2 → ∀ e ∈ l1, e ∈ l2
  | [], _, _, e, he => absurd he (List.not_mem_nil e)
  | _ :: _, [], h, _, _ => absurd h id
  | a :: as, b :: bs, h, e, he => by
    obtain ⟨rfl, h2⟩ := h
    rcases List.mem_cons.mp he with rfl | hmem
    · exact List.mem_cons_self _ _
    · exact List.mem_cons_of_mem _ (isInitialSegment_subset as bs h2 e hmem)

theorem namesOf_drop_none (migs : List NamedMigration) :
    ∀ i, migs.get? i = none → (namesOf migs).drop i = [] := by
  induction migs with
  | nil => intro i _; simp [namesOf]
  | cons m rest ih =>
    intro i h
    cases i with
    | zero => cases h
    | succ j =>
      simp only [List.get?_cons_succ] at h
      simpa [namesOf] using ih j h

theorem namesOf_drop_some (migs : List NamedMigration) :
    ∀ i m, migs.get? i = some m →
      (namesOf migs).drop i = m.name :: (namesOf migs).drop (i + 1) := by
  induction migs with
  | nil => intro i m h; cases i <;> cases h
  | cons m0 rest ih =>
    intro i m h
    cases i with
    | zero =>
      cases h
      simp [namesOf]
    | succ j =>
      simp only [List.get?_cons_succ] at h
      have h2 := ih j m h
      simpa [namesOf] using h2

theorem checkPositions_ok_iff (migs : List NamedMigration) :
    ∀ (ex : List String) (i : Nat),
      checkPositions migs i ex = .ok ()
        ↔ isInitialSegment ex ((namesOf migs).drop i) := by
  intro ex
  induction ex with
  | nil => intro i; simp [checkPositions, isInitialSegment]
  | cons e es ih =>
    intro i
    simp only [checkPositions]
    cases hm : migs.get? i with
    | none =>
      rw [namesOf_drop_none migs i hm]
      simp [isInitialSegment]
    | some m =>
      rw [namesOf_drop_some migs i m hm]
      dsimp only
      by_cases hne : m.name = e
      · simp only [hne, if_true, isInitialSegment]
        rw [ih (i + 1)]
        simp [hne]
      · simp only [hne, if_false, isInitialSegment]
        constructor
        · intro h; cases h
        · intro h
          exact absurd h.1.symm hne

theorem firstMissing_eq_none (migs : List NamedMigration) :
    ∀ ex, firstMissing migs ex = none ↔ ∀ e ∈ ex, e ∈ namesOf migs := by
  intro ex
  induction ex with
  | nil => simp [firstMissing]
  | cons e es ih =>
    simp only [firstMissing]
    by_cases h : migs.any (fun m => decide (m.name = e)) = true
    · have he : e ∈ namesOf migs := by
        obtain ⟨m, hm, hname⟩ := List.any_eq_true.mp h
        exact List.mem_map.mpr ⟨m, hm, of_decide_eq_true hname⟩
      simp [h, ih, he]
    · have he : e ∉ namesOf migs := by
        intro hmem
        obtain ⟨m, hm, hf⟩ := List.mem_map.mp hmem
        exact h (List.any_eq_true.mpr ⟨m, hm, decide_eq_true hf⟩)
      simp [h, he]

theorem checkPositions_not_typeErr (migs : List NamedMigration) :
    ∀ (ex : List String) (i : Nat), i + ex.length ≤ migs.length →
      checkPositions migs i ex ≠ .error .typeErr := by
  intro ex
  induction ex with
  | nil =>
    intro i _ hc
    cases hc
  | cons e es ih =>
    intro i h
    simp only [checkPositions]
    cases hm : migs.get? i with
    | none =>
      have h1 : migs.length ≤ i := List.get?_eq_none.mp hm
      simp only [List.length_cons] at h
      intro _
      omega
    | some m =>
      dsimp only
      by_cases hne : m.name = e
      · rw [if_pos hne]
        refine ih (i + 1) ?_
        simp only [List.length_cons] at h
        omega
      · rw [if_neg hne]
        intro hc
        cases hc

theorem checkPositions_err_cases (migs : List NamedMigration) :
    ∀ (ex : List String) (i : Nat) (e : MErr),
      checkPositions migs i ex = .error e →
      (∃ n k, e = .corruptedOrder n k) ∨ e = .typeErr := by
  intro ex
  induction ex with
  | nil =>
    intro i e h
    cases h
  | cons e0 es ih =>
    intro i e h
    simp only [checkPositions] at h
    cases hm : migs.get? i with
    | none =>
      rw [hm] at h
      cases h
      exact Or.inr rfl
    | some m =>
      rw [hm] at h
      dsimp only at h
      by_cases hne : m.name = e0
      · rw [if_pos hne] at h
        exact ih (i + 1) e h
      · rw [if_neg hne] at h
        cases h
        exact Or.inl ⟨e0, i, rfl⟩

theorem ensure_fails (migs : List NamedMigration) (ex : List String)
    (hex : ex.Nodup)
    (hnot : ¬ isInitialSegment ex (namesOf migs)) :
    ∃ e, ensureMigrationsNotCorrupted migs ex = .error e
      ∧ e.isCorruption = true := by
  unfold ensureMigrationsNotCorrupted
  cases hf : firstMissing migs ex with
  | some n => exact ⟨.corruptedMissing n, rfl, rfl⟩
  | none =>
    have hsub : ∀ e ∈ ex, e ∈ namesOf migs := (firstMissing_eq_none migs ex).mp hf
    have hlen : ex.length ≤ (namesOf migs).length :=
      (List.Nodup.subperm hex hsub).length_le
    have hlen2 : ex.length ≤ migs.length := by
      simpa [namesOf] using hlen
    have hnt := checkPositions_not_typeErr migs ex 0 (by omega)
    cases hcp : checkPositions migs 0 ex with
    | ok u =>
      cases u
      have hseg := (checkPositions_ok_iff migs ex 0).mp hcp
      rw [List.drop_zero] at hseg
      exact absurd hseg hnot
    | error e =>
      refine ⟨e, rfl, ?_⟩
      rcases checkPositions_err_cases migs ex 0 e hcp with ⟨n, k, rfl⟩ | rfl
      · rfl
      · exact absurd hcp hnt

theorem ensure_ok (migs : List NamedMigration) (ex : List String)
    (hseg : isInitialSegment ex (namesOf migs)) :
    ensureMigrationsNotCorrupted migs ex = .ok () := by
  unfold ensureMigrationsNotCorrupted
  have hf : firstMissing migs ex = none :=
    (firstMissing_eq_none migs ex).mpr (isInitialSegment_subset ex _ hseg)
  rw [hf]
  refine (checkPositions_ok_iff migs ex 0).mpr ?_
  rw [List.drop_zero]
  exact hseg

theorem getState_ok (migs : List NamedMigration) (L : List String)
    (hsorted : List.Sorted (fun a b => nameLe a.name b.name) migs)
    (hseg : isInitialSegment (sortNames L) (namesOf migs)) :
    getState (.record migs) L
      = .ok ⟨migs, currentIndexOf migs (sortNames L)⟩ := by
  unfold getState
  rw [show resolveMigrations (.record migs) = .ok migs from by
    unfold resolveMigrations
    dsimp only
    rw [List.Sorted.insertionSort_eq hsorted]]
  dsimp only
  rw [ensure_ok migs (sortNames L) hseg]

/-- **C2**: for every resolved migration list sorted by name and every ledger
whose sorted contents are not a prefix of the resolved names, every operation
fails with a corruption error before any migration action is invoked and
before any ledger mutation: the outcome carries only the error (no results),
the ledger is unchanged, and the event trace contains no action events. -/
theorem c2_prefix_invariant (env : Env) (g : TargetFn)
    (migs : List NamedMigration) (L : List String)
    (hb : env.bootstrapOk = true) (ha : env.acquireOk = true)
    (hr : env.releaseOk = true)
    (hsorted : List.Sorted (fun a b => nameLe a.name b.name) migs)
    (hnodupL : L.Nodup)
    (hnot : ¬ isInitialSegment (sortNames L) (namesOf migs)) :
    ∃ e, e.isCorruption = true ∧
      migrate env g (.record migs) L
        = ⟨⟨some e, none⟩, L, [Event.acquireLock, Event.releaseLock]⟩ := by
  have hexnd : (sortNames L).Nodup :=
    (List.perm_insertionSort (fun a b => nameLe a b) L).nodup_iff.mpr hnodupL
  obtain ⟨e, hens, hcorr⟩ := ensure_fails migs (sortNames L) hexnd hnot
  have hst : getState (.record migs) L = .error e := by
    unfold getState
    rw [show resolveMigrations (.record migs) = .ok migs from by
      unfold resolveMigrations
      dsimp only
      rw [List.Sorted.insertionSort_eq hsorted]]
    dsimp only
    rw [hens]
  exact ⟨e, hcorr, migrate_stateErr env g (.record migs) L e hb ha hr hst⟩

/-- Witness for C2: ledger `["b"]` against resolved list `["a"]`. -/
theorem c2_witness :
    ∃ e, MErr.isCorruption e = true ∧
      migrate envStd targetLatest (.record [mA]) ["b"]
        = ⟨⟨some e, none⟩, ["b"], [Event.acquireLock, Event.releaseLock]⟩ :=
  c2_prefix_invariant envStd targetLatest [mA] ["b"] rfl rfl rfl
    (List.sorted_singleton mA) (List.nodup_singleton "b") (by decide)


theorem findIdx_name_none (migs : List NamedMigration) (n : String)
    (h : n ∉ namesOf migs) :
    migs.findIdx? (fun it => decide (it.name = n)) = none := by
  induction migs with
  | nil => rfl
  | cons m rest ih =>
    have h1 : ¬ (m.name = n) := fun he =>
      h (List.mem_map.mpr ⟨m, List.mem_cons_self m rest, he⟩)
    have h2 : n ∉ namesOf rest := fun hmem => by
      obtain ⟨m2, hm2, hf⟩ := List.mem_map.mp hmem
      exact h (List.mem_map.mpr ⟨m2, List.mem_cons_of_mem m hm2, hf⟩)
    rw [List.findIdx?_cons]
    simp only [h1, decide_False, if_false]
    rw [List.findIdx?_succ, ih h2]
    rfl

/-- **C4 counterexample**: with an empty resolved migration list, a target
name that exists nowhere still yields `{results: []}` with no error - the
empty-list early return precedes target resolution - contradicting the
claim's "for every resolved list, including the empty one, an absent target
name is a planning failure returning an error". -/
theorem c4_counterexample :
    (migrateTo envStd (.record []) (.byName "x") []).resultSet.error = none ∧
    (migrateTo envStd (.record []) (.byName "x") []).resultSet.results
      = some [] := by
  decide

/-- **C4 amended**: the `NO_MIGRATIONS` sentinel resolves to target index
`-1`; a target name present in the resolved list resolves to that
migration's `findIndex` in the sorted list; a target name absent from a
*non-empty* resolved list is a planning failure returning `{error}` with no
results; but on the *empty* resolved list the call returns `{results: []}`
without evaluating target resolution at all. -/
theorem c4_target_resolution (env : Env) (migs : List NamedMigration)
    (L : List String)
    (hb : env.bootstrapOk = true) (ha : env.acquireOk = true)
    (hr : env.releaseOk = true)
    (hsorted : List.Sorted (fun a b => nameLe a.name b.name) migs)
    (hseg : isInitialSegment (sortNames L) (namesOf migs)) :
    (∀ st : MigrationState, targetTo .noMigrations st = .ok (some (-1))) ∧
    (∀ (st : MigrationState) (n : String) (i : Nat),
      st.migrations.findIdx? (fun it => decide (it.name = n)) = some i →
      targetTo (.byName n) st = .ok (some (i : Int))) ∧
    (∀ n : String, migs ≠ [] → n ∉ namesOf migs →
      migrateTo env (.record migs) (.byName n) L
        = ⟨⟨some (.targetNotFound n), none⟩, L,
            [Event.acquireLock, Event.releaseLock]⟩) ∧
    (migs = [] → ∀ t : MigrateToTarget,
      migrateTo env (.record migs) t L
        = ⟨⟨none, some []⟩, L, [Event.acquireLock, Event.releaseLock]⟩) := by
  refine ⟨fun st => rfl, ?_, ?_, ?_⟩
  · intro st n i h
    unfold targetTo
    dsimp only
    rw [h]
  · intro n hne hnot
    refine migrate_targetErr env (targetTo (.byName n)) (.record migs) L
      ⟨migs, currentIndexOf migs (sortNames L)⟩ (.targetNotFound n) hb ha hr
      (getState_ok migs L hsorted hseg) ?_ ?_
    · intro hlen
      exact hne (List.length_eq_zero.mp hlen)
    · unfold targetTo
      dsimp only
      rw [findIdx_name_none migs n hnot]
  · intro hm t
    subst hm
    have hsL : sortNames L = [] := by
      cases hLs : sortNames L with
      | nil => rfl
      | cons x xs =>
        rw [hLs] at hseg
        exact absurd hseg id
    have hL : L = [] := by
      have hperm := List.perm_insertionSort (fun a b => nameLe a b) L
      rw [show List.insertionSort (fun a b => nameLe a b) L = sortNames L
        from rfl, hsL] at hperm
      exact hperm.symm.eq_nil
    subst hL
    have hst : getState (.record ([] : List NamedMigration)) []
        = .ok ⟨[], -1⟩ := by decide
    unfold migrateTo migrate runInContext runMigrations lockedBody
    simp [hb, ha, hr, hst]

/-- Witness for C4: an absent target name on a non-empty list is a planning
failure with no results. -/
theorem c4_witness :
    migrateTo envStd (.record [mA]) (.byName "x") []
      = ⟨⟨some (.targetNotFound "x"), none⟩, [],
          [Event.acquireLock, Event.releaseLock]⟩ :=
  (c4_target_resolution envStd [mA] [] rfl rfl rfl
    (List.sorted_singleton mA) (by decide)).2.2.1 "x" (by decide) (by decide)


theorem isInitialSegment_refl : ∀ l : List String, isInitialSegment l l
  | [] => trivial
  | _ :: as => ⟨rfl, isInitialSegment_refl as⟩

theorem isInitialSegment_length_le :
    ∀ (l1 l2 : List String), isInitialSegment l1 l2 → l1.length ≤ l2.length
  | [], _, _ => Nat.zero_le _
  | _ :: _, [], h => absurd h id
  | _ :: as, _ :: bs, h => by
    simpa using isInitialSegment_length_le as bs h.2

theorem isInitialSegment_take :
    ∀ (l1 l2 : List String), isInitialSegment l1 l2 → l2.take l1.length = l1
  | [], l2, _ => by simp
  | _ :: _, [], h => absurd h id
  | a :: as, b :: bs, h => by
    obtain ⟨rfl, h2⟩ := h
    simp [isInitialSegment_take as bs h2]

theorem isInitialSegment_get? :
    ∀ (l1 l2 : List String), isInitialSegment l1 l2 →
      ∀ (i : Nat) (x : String), l1.get? i = some x → l2.get? i = some x
  | [], _, _, i, _, h => by cases i <;> cases h
  | _ :: _, [], h, _, _, _ => absurd h id
  | a :: as, b :: bs, h, i, x, hx => by
    obtain ⟨rfl, h2⟩ := h
    cases i with
    | zero => exact hx
    | succ j =>
      simp only [List.get?_cons_succ] at hx ⊢
      exact isInitialSegment_get? as bs h2 j x hx

theorem findIdx_name_of_nodup (migs : List NamedMigration)
    (hn : (namesOf migs).Nodup) :
    ∀ (i : Nat) (x : String), (namesOf migs).get? i = some x →
      migs.findIdx? (fun it => decide (it.name = x)) = some i := by
  induction migs with
  | nil => intro i x h; cases i <;> cases h
  | cons m rest ih =>
    intro i x h
    have hn2 : (namesOf rest).Nodup := (List.nodup_cons.mp hn).2
    have hm : m.name ∉ namesOf rest := (List.nodup_cons.mp hn).1
    cases i with
    | zero =>
      simp only [namesOf, List.map_cons, List.get?_cons_zero,
        Option.some.injEq] at h
      subst h
      rw [List.findIdx?_cons]
      simp
    | succ j =>
      simp only [namesOf, List.map_cons, List.get?_cons_succ] at h
      have hxr : x ∈ namesOf rest := List.get?_mem h
      have hne : ¬ (m.name = x) := fun he => hm (he ▸ hxr)
      rw [List.findIdx?_cons]
      simp only [hne, decide_False, if_false]
      rw [List.findIdx?_succ, ih hn2 j x h]
      rfl

theorem find_name_of_nodup (migs : List NamedMigration)
    (hn : (namesOf migs).Nodup) :
    ∀ m ∈ migs, migs.find? (fun it => decide (it.name = m.name)) = some m := by
  induction migs with
  | nil => intro m hm; cases hm
  | cons m0 rest ih =>
    intro m hm
    have hn2 : (namesOf rest).Nodup := (List.nodup_cons.mp hn).2
    have hm0 : m0.name ∉ namesOf rest := (List.nodup_cons.mp hn).1
    rcases List.mem_cons.mp hm with rfl | hmem
    · rw [List.find?_cons_of_pos]
      simp
    · have hne : ¬ (m0.name = m.name) := fun he =>
        hm0 (he ▸ List.mem_map.mpr ⟨m, hmem, rfl⟩)
      rw [List.find?_cons_of_neg]
      · exact ih hn2 m hmem
      · simpa using hne

theorem currentIndexOf_seg (migs : List NamedMigration)
    (hn : (namesOf migs).Nodup) (ex : List String)
    (hseg : isInitialSegment ex (namesOf migs)) :
    currentIndexOf migs ex = (ex.length : Int) - 1 := by
  cases hex : ex with
  | nil =>
    unfold currentIndexOf
    simp
  | cons e es =>
    subst hex
    have hlt : (e :: es).length - 1 < (e :: es).length := by simp
    have hlast := List.getLast?_eq_get? (e :: es)
    rw [List.get?_eq_get hlt] at hlast
    unfold currentIndexOf
    rw [hlast]
    dsimp only
    have hget : (namesOf migs).get? ((e :: es).length - 1)
        = some ((e :: es).get ⟨(e :: es).length - 1, hlt⟩) :=
      isInitialSegment_get? (e :: es) (namesOf migs) hseg _ _
        (List.get?_eq_get hlt)
    rw [findIdx_name_of_nodup migs hn _ _ hget]
    simp only [List.length_cons]
    push_cast
    omega

theorem planUp_eq_drop (migs : List NamedMigration) (k : Nat)
    (hk : k ≤ migs.length) :
    planUp migs ((k : Int) - 1) ((migs.length : Int) - 1) = migs.drop k := by
  unfold planUp
  have h1 : ((k : Int) - 1 + 1).toNat = k := by omega
  have h2 : (((migs.length : Int) - 1) - ((k : Int) - 1)).toNat
      = migs.length - k := by omega
  rw [h1, h2]
  apply List.take_of_length_le
  rw [List.length_drop]

theorem execUp_all_ok (migs : List NamedMigration) :
    ∀ (plan : List NamedMigration) (L : List String) (ev : List Event)
      (done : List MigrationResult),
      (∀ m ∈ plan, migs.find? (fun it => decide (it.name = m.name)) = some m) →
      (∀ m ∈ plan, m.upOk = true) →
      ∃ ev2, execUp migs plan L ev done
        = (.ok (done ++ plan.map (fun m => ⟨m.name, .Up, .Success⟩)),
            L ++ namesOf plan, ev2) := by
  intro plan
  induction plan with
  | nil =>
    intro L ev done _ _
    exact ⟨ev, by simp [execUp, namesOf]⟩
  | cons m rest ih =>
    intro L ev done hfind hup
    have hf := hfind m (List.mem_cons_self m rest)
    have hu := hup m (List.mem_cons_self m rest)
    simp only [execUp, hf]
    rw [if_pos hu]
    obtain ⟨ev2, hev⟩ := ih (L ++ [m.name])
      (ev ++ [Event.runUp m.name, Event.ledgerInsert m.name])
      (done ++ [⟨m.name, .Up, .Success⟩])
      (fun m2 h2 => hfind m2 (List.mem_cons_of_mem m h2))
      (fun m2 h2 => hup m2 (List.mem_cons_of_mem m h2))
    refine ⟨ev2, ?_⟩
    rw [hev]
    simp [namesOf]

theorem sortNames_perm (l : List String) : List.Perm (sortNames l) l :=
  List.perm_insertionSort _ l

theorem sortNames_sorted (l : List String) :
    List.Sorted nameLe (sortNames l) :=
  List.sorted_insertionSort _ l

theorem namesOf_sorted (migs : List NamedMigration)
    (h : List.Sorted (fun a b => nameLe a.name b.name) migs) :
    List.Sorted nameLe (namesOf migs) := by
  unfold namesOf List.Sorted
  exact List.pairwise_map.mpr h

theorem sortNames_append_suffix (migs : List NamedMigration) (L : List String)
    (hsorted : List.Sorted nameLe (namesOf migs))
    (hseg : isInitialSegment (sortNames L) (namesOf migs)) :
    sortNames (L ++ (namesOf migs).drop (sortNames L).length)
      = namesOf migs := by
  have htake := isInitialSegment_take (sortNames L) (namesOf migs) hseg
  have hperm : List.Perm (L ++ (namesOf migs).drop (sortNames L).length)
      (namesOf migs) := by
    have h1 : List.Perm (L ++ (namesOf migs).drop (sortNames L).length)
        (sortNames L ++ (namesOf migs).drop (sortNames L).length) :=
      List.Perm.append_right _ (sortNames_perm L).symm
    have h2 := List.take_append_drop (sortNames L).length (namesOf migs)
    rw [htake] at h2
    rw [h2] at h1
    exact h1
  exact List.eq_of_perm_of_sorted ((sortNames_perm _).trans hperm)
    (sortNames_sorted _) hsorted


theorem migrate_up_all_ok (env : Env) (migs : List NamedMigration)
    (L : List String)
    (hb : env.bootstrapOk = true) (ha : env.acquireOk = true)
    (hr : env.releaseOk = true)
    (hsorted : List.Sorted (fun a b => nameLe a.name b.name) migs)
    (hnodup : (namesOf migs).Nodup)
    (hup : ∀ m ∈ migs, m.upOk = true)
    (hseg : isInitialSegment (sortNames L) (namesOf migs))
    (hlt : (sortNames L).length < migs.length) :
    ∃ ev2, migrateToLatest env (.record migs) L
      = ⟨⟨none, some ((migs.drop (sortNames L).length).map
            (fun m => ⟨m.name, .Up, .Success⟩))⟩,
          L ++ (namesOf migs).drop (sortNames L).length, ev2⟩ := by
  have hk : (sortNames L).length ≤ migs.length := le_of_lt hlt
  have hcur : currentIndexOf migs (sortNames L)
      = ((sortNames L).length : Int) - 1 :=
    currentIndexOf_seg migs hnodup (sortNames L) hseg
  have hst : getState (.record migs) L
      = .ok ⟨migs, ((sortNames L).length : Int) - 1⟩ := by
    rw [getState_ok migs L hsorted hseg, hcur]
  have hplan : planUp migs (((sortNames L).length : Int) - 1)
      ((migs.length : Int) - 1) = migs.drop (sortNames L).length :=
    planUp_eq_drop migs _ hk
  have hfind : ∀ m ∈ migs.drop (sortNames L).length,
      migs.find? (fun it => decide (it.name = m.name)) = some m :=
    fun m hm => find_name_of_nodup migs hnodup m (List.drop_subset _ migs hm)
  have hup2 : ∀ m ∈ migs.drop (sortNames L).length, m.upOk = true :=
    fun m hm => hup m (List.drop_subset _ migs hm)
  obtain ⟨ev2, hexec⟩ := execUp_all_ok migs (migs.drop (sortNames L).length) L
    [Event.acquireLock] [] hfind hup2
  have hn : ¬ (migs.length = 0) := by omega
  have hlt1 : ¬ ((migs.length : Int) - 1 < ((sortNames L).length : Int) - 1) := by
    omega
  have hgt1 : (migs.length : Int) - 1 > ((sortNames L).length : Int) - 1 := by
    omega
  refine ⟨ev2 ++ [Event.releaseLock], ?_⟩
  unfold migrateToLatest migrate runInContext runMigrations lockedBody
  rw [hst]
  dsimp only [targetLatest]
  simp only [hb, ha, hr, hn, if_true, if_false, hlt1, hgt1]
  rw [hplan, hexec]
  simp [namesOf]

/-- **C7**: whenever the computed target index equals the current index the
operation performs no actions and returns `{results: []}` (not an error);
and invoking `migrateToLatest` twice in a row - starting from any healthy
state, with every forward action succeeding and no migrations added between
the calls - yields an empty results list on the second call. -/
theorem c7_idempotence :
    (∀ (env : Env) (g : TargetFn) (src : MigrationSource) (L : List String)
      (st : MigrationState),
      env.bootstrapOk = true → env.acquireOk = true → env.releaseOk = true →
      getState src L = .ok st → g st = .ok (some st.currentIndex) →
      migrate env g src L
        = ⟨⟨none, some []⟩, L, [Event.acquireLock, Event.releaseLock]⟩) ∧
    (∀ (env : Env) (migs : List NamedMigration) (L : List String),
      env.bootstrapOk = true → env.acquireOk = true → env.releaseOk = true →
      List.Sorted (fun a b => nameLe a.name b.name) migs →
      (namesOf migs).Nodup →
      (∀ m ∈ migs, m.upOk = true) →
      isInitialSegment (sortNames L) (namesOf migs) →
      (migrateToLatest env (.record migs) L).resultSet.error = none ∧
      (migrateToLatest env (.record migs)
          (migrateToLatest env (.record migs) L).ledger).resultSet
        = ⟨none, some []⟩) := by
  constructor
  · exact fun env g src L st hb ha hr hst hg =>
      migrate_noop env g src L st hb ha hr hst hg
  · intro env migs L hb ha hr hsorted hnodup hup hseg
    have hnoopAt : ∀ (L2 : List String),
        isInitialSegment (sortNames L2) (namesOf migs) →
        (sortNames L2).length = migs.length →
        migrateToLatest env (.record migs) L2
          = ⟨⟨none, some []⟩, L2, [Event.acquireLock, Event.releaseLock]⟩ := by
      intro L2 hseg2 hlen2
      have hst : getState (.record migs) L2
          = .ok ⟨migs, (migs.length : Int) - 1⟩ := by
        rw [getState_ok migs L2 hsorted hseg2,
          currentIndexOf_seg migs hnodup _ hseg2, hlen2]
      exact migrate_noop env targetLatest (.record migs) L2
        ⟨migs, (migs.length : Int) - 1⟩ hb ha hr hst rfl
    by_cases hlt : (sortNames L).length < migs.length
    · obtain ⟨ev2, hfirst⟩ :=
        migrate_up_all_ok env migs L hb ha hr hsorted hnodup hup hseg hlt
      have hsort2 : sortNames (L ++ (namesOf migs).drop (sortNames L).length)
          = namesOf migs :=
        sortNames_append_suffix migs L (namesOf_sorted migs hsorted) hseg
      constructor
      · rw [hfirst]
      · rw [hfirst]
        dsimp only
        have hsecond := hnoopAt (L ++ (namesOf migs).drop (sortNames L).length)
          (by rw [hsort2]; exact isInitialSegment_refl _)
          (by rw [hsort2]; simp [namesOf])
        rw [hsecond]
    · have hk : (sortNames L).length ≤ (namesOf migs).length :=
        isInitialSegment_length_le _ _ hseg
      have hkeq : (sortNames L).length = migs.length := by
        simp only [namesOf, List.length_map] at hk
        omega
      have hfirst := hnoopAt L hseg hkeq
      constructor
      · rw [hfirst]
      · rw [hfirst]
        dsimp only
        rw [hnoopAt L hseg hkeq]

/-- Witness for C7: a fresh full run followed by an idempotent second run. -/
theorem c7_witness :
    (migrateToLatest envStd (.record [mA]) []).resultSet.error = none ∧
    (migrateToLatest envStd (.record [mA])
        (migrateToLatest envStd (.record [mA]) []).ledger).resultSet
      = ⟨none, some []⟩ :=
  c7_idempotence.2 envStd [mA] [] rfl rfl rfl (List.sorted_singleton mA)
    (by decide) (by decide) (by decide)

end KyselyMigration
